import Mathlib

/-!
Verification of the travelling-robot route builder and validator.

The development shallowly embeds the Python source `travelling-robot.py`:
points are pairs of reals, the depot ("home") sits at (1/2, 1/2), the
charge capacity is the global `max_charge = 3`, and the sentinel
`max_distance = 10` marks an infeasible leg.  The route builder `reorder`
is embedded with an explicit fuel parameter because its `while` loop has
no syntactic termination measure; `none` means the loop was still running
when the fuel ran out.  The validator `check_order` is embedded as a
function into `Except CheckErr ℝ` mirroring the source's sequence of
assertions.  Capacity-parameterized variants (`reorderC`, `check_orderC`)
generalize the global constant so that claims comparing two capacities
can be stated; the source functions are the `max_charge` instances.
-/

open Classical

noncomputable section

namespace TravellingRobot

/-- A point of the plane, as in the source's rows of the `pts` array. -/
abbrev Point : Type := ℝ × ℝ

/-- `home = np.array([0.5, 0.5])`, the recharging station. -/
def home : Point := (1/2, 1/2)

/-- `max_charge = 3.0`. -/
def max_charge : ℝ := 3

/-- `max_distance = 10`, the sentinel for an infeasible leg. -/
def max_distance : ℝ := 10

/-- `distance(p1, p2)`: Euclidean distance,
`np.sqrt((p1[0]-p2[0])**2 + (p1[1]-p2[1])**2)`. -/
def dist (p1 p2 : Point) : ℝ :=
  Real.sqrt ((p1.1 - p2.1) ^ 2 + (p1.2 - p2.2) ^ 2)

/-- `distance_modified(p1, p2, charge)`: the distance from `p1` to `p2` if
the leg plus the return from `p1` to home fits strictly inside `charge`,
otherwise the sentinel `max_distance`.  Note `p1` is the candidate point
and `p2` the current position at every call site. -/
def distance_modified (p1 p2 : Point) (charge : ℝ) : ℝ :=
  if dist p1 p2 + dist p1 home < charge then dist p1 p2 else max_distance

/-- Loop of `get_index`: scan `points` left to right, returning the index
(offset by the accumulator) of the first entry equal to `p`, else `-1`. -/
def get_indexAux (p : Point) : List Point → Int → Int
  | [], _ => -1
  | q :: qs, i => if q = p then i else get_indexAux p qs (i + 1)

/-- `get_index(points, p)`: index of the first occurrence of `p` in
`points`, `-1` if absent. -/
def get_index (points : List Point) (p : Point) : Int :=
  get_indexAux p points 0

/-- `remove(points, p)`: delete the first occurrence of `p` (numpy
element-wise equality of both coordinates), keeping the rest. -/
def remove : List Point → Point → List Point
  | [], _ => []
  | q :: qs, p => if q = p then qs else q :: remove qs p

/-- Loop of `nearest_neighbor_modified`: running minimum `m` with its
argument `b`, updated only on a strictly smaller `distance_modified`
value, so the first minimizer wins. -/
def nnAux (p : Point) (charge : ℝ) : List Point → ℝ → Point → ℝ × Point
  | [], m, b => (m, b)
  | q :: qs, m, b =>
    if distance_modified q p charge < m then
      nnAux p charge qs (distance_modified q p charge) q
    else
      nnAux p charge qs m b

/-- `nearest_neighbor_modified(points, p, charge)`: minimum running from
`(max_distance, home)` over the `distance_modified` values of `points`. -/
def nearest_neighbor_modified (points : List Point) (p : Point) (charge : ℝ) :
    ℝ × Point :=
  nnAux p charge points max_distance home

/-- Python list indexing `pts[idx]` with negative indices counting from
the end; out-of-range reads (which raise in Python and are unreachable in
the verified paths) default to the origin. -/
def pyGet (pts : List Point) (idx : Int) : Point :=
  if 0 ≤ idx then pts.getD idx.toNat (0, 0)
  else pts.getD (pts.length - (-idx).toNat) (0, 0)

/-- The loop guard `unvisited_points.any()`: numpy truth of an array, true
iff some coordinate of some remaining point is nonzero.  This is NOT the
same as the list being nonempty: a sole remaining point at the exact
origin makes it false. -/
def anyNonzero (l : List Point) : Prop := ∃ p ∈ l, p.1 ≠ 0 ∨ p.2 ≠ 0

/-- The builder's loop state: the tour built so far, the remaining charge,
and the points not yet visited.  The current position is implicit, as in
the source: `points[best_order[-1]]`. -/
structure RState where
  best_order : List Int
  robot_charge : ℝ
  unvisited : List Point

/-- One iteration of the `reorder` loop body, with the recharge capacity
`cap` generalizing the global `max_charge`.  Either the nearest feasible
neighbor is appended (and removed from `unvisited`, charge decremented),
or — when the scan returned the sentinel — the depot id `0` is appended
and the charge reset, `unvisited` untouched. -/
def reorderStepC (cap : ℝ) (points : List Point) (st : RState) : RState :=
  let nn := nearest_neighbor_modified st.unvisited
      (pyGet points (st.best_order.getLastD 0)) st.robot_charge
  if nn.1 = max_distance then
    ⟨st.best_order ++ [0], cap, st.unvisited⟩
  else
    ⟨st.best_order ++ [get_index points nn.2], st.robot_charge - nn.1,
      remove st.unvisited nn.2⟩

/-- The `while unvisited_points.any()` loop of `reorder`, fueled. -/
def reorderLoopC (cap : ℝ) (points : List Point) : ℕ → RState → Option (List Int)
  | 0, st => if anyNonzero st.unvisited then none else some st.best_order
  | fuel + 1, st =>
    if anyNonzero st.unvisited then
      reorderLoopC cap points fuel (reorderStepC cap points st)
    else some st.best_order

/-- `reorder(points)` with the capacity as a parameter: start at the
depot with full charge and all of `points[1:]` unvisited. -/
def reorderC (cap : ℝ) (points : List Point) (fuel : ℕ) : Option (List Int) :=
  reorderLoopC cap points fuel ⟨[0], cap, points.drop 1⟩

/-- `reorder(points)` of the source, at the global `max_charge`. -/
def reorder (points : List Point) (fuel : ℕ) : Option (List Int) :=
  reorderC max_charge points fuel

/-- The three assertion failures of `check_order`, named as in the spec's
error taxonomy. -/
inductive CheckErr where
  | malformedEndpoints
  | incompleteVisitation
  | constraintViolation

/-- The replay loop of `check_order`: thread `(total, charge, last)`
through the tour; each leg adds its length to the total and subtracts it
from the charge, which must stay strictly positive (`assert(charge > 0)`)
and is reset to the capacity after arriving at the depot. -/
def traverseC (cap : ℝ) (pts : List Point) :
    List Int → ℝ × ℝ × Point → Option (ℝ × ℝ × Point)
  | [], s => some s
  | idx :: rest, (total, charge, last) =>
    let pt := pyGet pts idx
    let d := dist pt last
    if 0 < charge - d then
      traverseC cap pts rest (total + d, if idx = 0 then cap else charge - d, pt)
    else none

/-- `check_order(pts, order)` with the capacity as a parameter: the
endpoint asserts, the visitation assert (`set(order) == set(range(N+1))`
with `N + 1 = pts.length`), then the charge replay; on success the total
path length is returned. -/
def check_orderC (cap : ℝ) (pts : List Point) (order : List Int) :
    Except CheckErr ℝ :=
  if order.headD (-1) = 0 ∧ order.getLastD (-1) = 0 then
    if ∀ i : Int, i ∈ order ↔ 0 ≤ i ∧ i < pts.length then
      match traverseC cap pts order (0, cap, pyGet pts 0) with
      | some s => Except.ok s.1
      | none => Except.error CheckErr.constraintViolation
    else Except.error CheckErr.incompleteVisitation
  else Except.error CheckErr.malformedEndpoints

/-- `check_order(pts, order)` of the source, at the global `max_charge`. -/
def check_order (pts : List Point) (order : List Int) : Except CheckErr ℝ :=
  check_orderC max_charge pts order

/-- Number of recharge events of a finished tour: occurrences of the
depot id strictly between the first and the last position. -/
def rechargeCount (tour : List Int) : ℕ :=
  ((tour.drop 1).dropLast).count 0

/-! ### Spec-side definitions for the validator contract

These restate the spec's description of `validate` independently of the
implementation's early-exit replay, to be compared with `check_order`. -/

/-- Spec: the tour starts and ends at the depot id. -/
def startsEndsAtDepot (order : List Int) : Prop :=
  order.headD (-1) = 0 ∧ order.getLastD (-1) = 0

/-- Spec: the set of identifiers appearing in the tour, duplicates
collapsed, is exactly `{0..N}` where `N + 1 = pts.length`. -/
def visitsExactly (pts : List Point) (order : List Int) : Prop :=
  ∀ i : Int, i ∈ order ↔ 0 ≤ i ∧ i < pts.length

/-- Spec: the charge remaining after each leg of the replay — decremented
by the leg's Euclidean length, reset to the capacity at every depot
occurrence (after the leg completes). -/
def chargesAlong (cap : ℝ) (pts : List Point) : List Int → ℝ → Point → List ℝ
  | [], _, _ => []
  | idx :: rest, charge, last =>
    (charge - dist (pyGet pts idx) last) ::
      chargesAlong cap pts rest
        (if idx = 0 then cap else charge - dist (pyGet pts idx) last)
        (pyGet pts idx)

/-- Spec: the total path length of the tour, the sum of all leg lengths. -/
def pathLen (pts : List Point) : List Int → Point → ℝ
  | [], _ => 0
  | idx :: rest, last => dist (pyGet pts idx) last + pathLen pts rest (pyGet pts idx)

/-- The robot's current position, `points[best_order[-1]]`. -/
def curPos (pts : List Point) (st : RState) : Point :=
  pyGet pts (st.best_order.getLastD 0)

/-- Invariant maintained by the `reorder` loop on point set
`home :: rest`: the tour so far starts at the depot and indexes into the
point list; `unvisited` is a sub-collection of `rest`; a non-depot index
is on the tour exactly when its point is no longer unvisited; the charge
strictly covers the return home; and the validator's replay of the
partial tour succeeds, arriving at the current position with exactly the
robot's charge and a non-negative accumulated length. -/
structure Inv (cap : ℝ) (rest : List Point) (st : RState) : Prop where
  head0 : st.best_order.headD 1 = 0
  entries : ∀ i ∈ st.best_order, 0 ≤ i ∧ i < ((home :: rest).length : Int)
  sub : st.unvisited.Sublist rest
  visited_iff : ∀ k : ℕ, 1 ≤ k → k < (home :: rest).length →
    ((k : Int) ∈ st.best_order ↔
      (home :: rest).getD k ((0:ℝ), (0:ℝ)) ∉ st.unvisited)
  charge_gt : dist (curPos (home :: rest) st) home < st.robot_charge
  replay : ∃ t, 0 ≤ t ∧
    traverseC cap (home :: rest) st.best_order ((0:ℝ), cap, pyGet (home :: rest) 0) =
      some (t, st.robot_charge, curPos (home :: rest) st)

/-- A concrete six-point set (the depot plus five collinear points on
the horizontal line through home) on which the two capacity runs of the
builder are compared. -/
def c7pts : List Point :=
  [home, (-29/20, 1/2), (-1/20, 1/2), (-13/10, 1/2), (17/10, 1/2), (3/4, 1/2)]

/-! ### Basic geometry lemmas -/

lemma dist_nonneg (p q : Point) : 0 ≤ dist p q := Real.sqrt_nonneg _

lemma dist_self (p : Point) : dist p p = 0 := by
  simp [dist]

lemma dist_comm (p q : Point) : dist p q = dist q p := by
  unfold dist
  ring_nf

/-- Distance between two points on a common horizontal line. -/
lemma dist_line (a b : ℝ) : dist (a, 1/2) (b, 1/2) = |a - b| := by
  unfold dist
  simp only [sub_self]
  rw [show (a - b) ^ 2 + (0:ℝ) ^ 2 = (a - b) ^ 2 by ring]
  exact Real.sqrt_sq_eq_abs _

/-- Distance between two points on a common vertical line. -/
lemma dist_vert (a b c : ℝ) : dist (c, a) (c, b) = |a - b| := by
  unfold dist
  simp only [sub_self]
  rw [show (0:ℝ) ^ 2 + (a - b) ^ 2 = (a - b) ^ 2 by ring]
  exact Real.sqrt_sq_eq_abs _

/-- The exact origin is strictly within half the capacity of home. -/
lemma origin_reachable : 2 * dist ((0:ℝ), (0:ℝ)) home < max_charge := by
  have h : dist ((0:ℝ), (0:ℝ)) home = Real.sqrt (1/2) := by
    unfold dist home
    norm_num
  rw [h, max_charge]
  have h2 : Real.sqrt (1/2) < 3/2 := by
    rw [show (3:ℝ)/2 = Real.sqrt ((3/2)^2) from (Real.sqrt_sq (by norm_num)).symm]
    exact Real.sqrt_lt_sqrt (by norm_num) (by norm_num)
  linarith

/-! ### Lemmas about `distance_modified` -/

lemma distance_modified_of_feasible {q p : Point} {ch : ℝ}
    (h : dist q p + dist q home < ch) : distance_modified q p ch = dist q p := by
  simp [distance_modified, h]

lemma distance_modified_of_infeasible {q p : Point} {ch : ℝ}
    (h : ¬ (dist q p + dist q home < ch)) :
    distance_modified q p ch = max_distance := by
  simp [distance_modified, h]

lemma distance_modified_lt {q p : Point} {ch : ℝ}
    (h : distance_modified q p ch < max_distance) :
    dist q p + dist q home < ch ∧ distance_modified q p ch = dist q p := by
  by_cases hf : dist q p + dist q home < ch
  · exact ⟨hf, distance_modified_of_feasible hf⟩
  · rw [distance_modified_of_infeasible hf] at h
    exact absurd h (lt_irrefl _)

/-! ### Lemmas about the nearest-neighbor scan -/

lemma nnAux_fst_le (p : Point) (ch : ℝ) (l : List Point) (m : ℝ) (b : Point) :
    (nnAux p ch l m b).1 ≤ m := by
  induction l generalizing m b with
  | nil => simp [nnAux]
  | cons q qs ih =>
    rw [nnAux]
    by_cases h : distance_modified q p ch < m
    · rw [if_pos h]
      exact le_trans (ih _ _) (le_of_lt h)
    · rw [if_neg h]
      exact ih _ _

lemma nnAux_le_of_mem {p : Point} {ch : ℝ} {l : List Point} {q : Point}
    (hq : q ∈ l) (m : ℝ) (b : Point) :
    (nnAux p ch l m b).1 ≤ distance_modified q p ch := by
  induction l generalizing m b with
  | nil => exact absurd hq (List.not_mem_nil q)
  | cons r rs ih =>
    rw [nnAux]
    rcases List.mem_cons.mp hq with h | h
    · subst h
      by_cases hlt : distance_modified q p ch < m
      · rw [if_pos hlt]
        exact nnAux_fst_le p ch rs _ _
      · rw [if_neg hlt]
        exact le_trans (nnAux_fst_le p ch rs _ _) (le_of_not_lt hlt)
    · by_cases hlt : distance_modified r p ch < m
      · rw [if_pos hlt]
        exact ih h _ _
      · rw [if_neg hlt]
        exact ih h _ _

lemma nnAux_cases (p : Point) (ch : ℝ) (l : List Point) (m : ℝ) (b : Point) :
    nnAux p ch l m b = (m, b) ∨
      ((nnAux p ch l m b).2 ∈ l ∧
        (nnAux p ch l m b).1 = distance_modified (nnAux p ch l m b).2 p ch ∧
        (nnAux p ch l m b).1 < m) := by
  induction l generalizing m b with
  | nil => exact Or.inl rfl
  | cons q qs ih =>
    rw [nnAux]
    by_cases h : distance_modified q p ch < m
    · rw [if_pos h]
      rcases ih (distance_modified q p ch) q with heq | ⟨hm, he, hlt⟩
      · rw [heq]
        exact Or.inr ⟨List.mem_cons_self q qs, rfl, h⟩
      · exact Or.inr ⟨List.mem_cons_of_mem q hm, he, lt_trans hlt h⟩
    · rw [if_neg h]
      rcases ih m b with heq | ⟨hm, he, hlt⟩
      · exact Or.inl heq
      · exact Or.inr ⟨List.mem_cons_of_mem q hm, he, hlt⟩

/-- If every unvisited candidate is infeasible, the scan keeps the
sentinel minimum and its initial point. -/
lemma nnAux_const {p : Point} {ch : ℝ} {l : List Point}
    (h : ∀ q ∈ l, distance_modified q p ch = max_distance) (b : Point) :
    nnAux p ch l max_distance b = (max_distance, b) := by
  induction l with
  | nil => rfl
  | cons q qs ih =>
    rw [nnAux, h q (List.mem_cons_self q qs), if_neg (lt_irrefl _)]
    exact ih fun r hr => h r (List.mem_cons_of_mem q hr)

/-- Structure of the nearest-neighbor result: either the sentinel with
the depot as placeholder, or a feasible member of the candidate list at
its true distance. -/
lemma nearest_neighbor_spec (points : List Point) (p : Point) (ch : ℝ) :
    (nearest_neighbor_modified points p ch).1 = max_distance ∨
      ((nearest_neighbor_modified points p ch).2 ∈ points ∧
        (nearest_neighbor_modified points p ch).1 =
          dist (nearest_neighbor_modified points p ch).2 p ∧
        dist (nearest_neighbor_modified points p ch).2 p +
          dist (nearest_neighbor_modified points p ch).2 home < ch) := by
  rcases nnAux_cases p ch points max_distance home with heq | ⟨hm, he, hlt⟩
  · left
    rw [nearest_neighbor_modified, heq]
  · right
    have h2 := distance_modified_lt (he ▸ hlt)
    exact ⟨hm, he.trans h2.2, h2.1⟩

lemma nearest_neighbor_lt {points : List Point} {p q : Point} {ch : ℝ}
    (hq : q ∈ points) (h : distance_modified q p ch < max_distance) :
    (nearest_neighbor_modified points p ch).1 < max_distance :=
  lt_of_le_of_lt (nnAux_le_of_mem hq max_distance home) h

/-! ### Lemmas about `get_index`, `remove`, `pyGet` -/

lemma get_indexAux_shift {p : Point} {l : List Point} (h : p ∈ l) (i : Int) :
    get_indexAux p l i = i + get_indexAux p l 0 := by
  induction l generalizing i with
  | nil => exact absurd h (List.not_mem_nil p)
  | cons q qs ih =>
    by_cases hq : q = p
    · simp [get_indexAux, hq]
    · have hm : p ∈ qs := by
        rcases List.mem_cons.mp h with h1 | h1
        · exact absurd h1.symm hq
        · exact h1
      rw [get_indexAux, if_neg hq, get_indexAux, if_neg hq, ih hm (i + 1), ih hm (0 + 1)]
      ring

lemma get_index_spec {p : Point} {l : List Point} (h : p ∈ l) :
    0 ≤ get_index l p ∧ (get_index l p).toNat < l.length ∧
      l.getD (get_index l p).toNat ((0:ℝ), (0:ℝ)) = p := by
  induction l with
  | nil => exact absurd h (List.not_mem_nil p)
  | cons q qs ih =>
    by_cases hq : q = p
    · refine ⟨?_, ?_, ?_⟩ <;> simp [get_index, get_indexAux, hq]
    · have hm : p ∈ qs := by
        rcases List.mem_cons.mp h with h1 | h1
        · exact absurd h1.symm hq
        · exact h1
      have hrec := ih hm
      have hshift : get_index (q :: qs) p = 1 + get_index qs p := by
        rw [get_index, get_indexAux, if_neg hq, get_indexAux_shift hm (0 + 1), get_index]
        ring
      refine ⟨?_, ?_, ?_⟩
      · rw [hshift]; omega
      · rw [hshift, List.length_cons]; omega
      · rw [hshift]
        have : (1 + get_index qs p).toNat = (get_index qs p).toNat + 1 := by omega
        rw [this, List.getD_cons_succ]
        exact hrec.2.2

/-- A point of the tail of a duplicate-free list gets a positive index. -/
lemma get_index_pos {p q : Point} {l : List Point} (hq : q ∈ l) (hne : p ≠ q) :
    1 ≤ get_index (p :: l) q := by
  rw [get_index, get_indexAux, if_neg hne, get_indexAux_shift hq (0 + 1)]
  have h0 : 0 ≤ get_index l q := (get_index_spec hq).1
  rw [get_index] at h0
  omega

lemma remove_sublist (l : List Point) (p : Point) : (remove l p).Sublist l := by
  induction l with
  | nil => simp [remove]
  | cons q qs ih =>
    rw [remove]
    by_cases h : q = p
    · rw [if_pos h]
      exact List.sublist_cons_self q qs
    · rw [if_neg h]
      exact List.Sublist.cons₂ q ih

lemma length_remove {l : List Point} {p : Point} (h : p ∈ l) :
    (remove l p).length + 1 = l.length := by
  induction l with
  | nil => exact absurd h (List.not_mem_nil p)
  | cons q qs ih =>
    rw [remove]
    by_cases hq : q = p
    · rw [if_pos hq, List.length_cons]
    · have hm : p ∈ qs := by
        rcases List.mem_cons.mp h with h1 | h1
        · exact absurd h1.symm hq
        · exact h1
      rw [if_neg hq, List.length_cons, List.length_cons, ih hm]

lemma mem_remove_iff {l : List Point} (hnd : l.Nodup) (p x : Point) :
    x ∈ remove l p ↔ x ∈ l ∧ x ≠ p := by
  induction l with
  | nil => simp [remove]
  | cons q qs ih =>
    have hnd' : qs.Nodup := (List.nodup_cons.mp hnd).2
    have hq' : q ∉ qs := (List.nodup_cons.mp hnd).1
    rw [remove]
    by_cases hq : q = p
    · rw [if_pos hq]
      subst hq
      constructor
      · intro hx
        exact ⟨List.mem_cons_of_mem q hx, fun he => hq' (he ▸ hx)⟩
      · rintro ⟨hx, hne⟩
        rcases List.mem_cons.mp hx with h1 | h1
        · exact absurd h1 hne
        · exact h1
    · rw [if_neg hq]
      constructor
      · intro hx
        rcases List.mem_cons.mp hx with h1 | h1
        · exact ⟨h1 ▸ List.mem_cons_self q qs, h1 ▸ fun he => hq he⟩
        · have := (ih hnd').mp h1
          exact ⟨List.mem_cons_of_mem q this.1, this.2⟩
      · rintro ⟨hx, hne⟩
        rcases List.mem_cons.mp hx with h1 | h1
        · exact h1 ▸ List.mem_cons_self q _
        · exact List.mem_cons_of_mem q ((ih hnd').mpr ⟨h1, hne⟩)

lemma pyGet_nonneg (pts : List Point) {idx : Int} (h : 0 ≤ idx) :
    pyGet pts idx = pts.getD idx.toNat ((0:ℝ), (0:ℝ)) := by
  rw [pyGet, if_pos h]

/-! ### List helpers for tours -/

lemma headD_concat {l : List Int} {x d : Int} (h : l ≠ []) :
    (l ++ [x]).headD d = l.headD d := by
  cases l with
  | nil => exact absurd rfl h
  | cons a t => rfl

lemma getLastD_concat (l : List Int) (x d : Int) :
    (l ++ [x]).getLastD d = x := by
  rw [List.getLastD_eq_getLast?, List.getLast?_concat]
  rfl

lemma headD_ne_nil {l : List Int} (h : l.headD 1 = 0) : l ≠ [] := by
  intro he
  rw [he] at h
  exact absurd h (by norm_num)

/-! ### Lemmas about the replay `traverseC` -/

lemma traverseC_append (cap : ℝ) (pts : List Point) (l1 l2 : List Int)
    (s : ℝ × ℝ × Point) :
    traverseC cap pts (l1 ++ l2) s =
      (traverseC cap pts l1 s).bind (traverseC cap pts l2) := by
  induction l1 generalizing s with
  | nil => rfl
  | cons idx rest ih =>
    obtain ⟨t, ch, last⟩ := s
    rw [List.cons_append, traverseC, traverseC]
    by_cases h : 0 < ch - dist (pyGet pts idx) last
    · rw [if_pos h, if_pos h, ih]
    · rw [if_neg h, if_neg h, Option.none_bind]

lemma traverseC_none_iff (cap : ℝ) (pts : List Point) (l : List Int) :
    ∀ t ch last, (traverseC cap pts l (t, ch, last) = none ↔
      ∃ c ∈ chargesAlong cap pts l ch last, c ≤ 0) := by
  induction l with
  | nil => intro t ch last; simp [traverseC, chargesAlong]
  | cons idx rest ih =>
    intro t ch last
    rw [traverseC, chargesAlong]
    by_cases h : 0 < ch - dist (pyGet pts idx) last
    · rw [if_pos h]
      rw [ih]
      constructor
      · rintro ⟨c, hc, hle⟩
        exact ⟨c, List.mem_cons_of_mem _ hc, hle⟩
      · rintro ⟨c, hc, hle⟩
        rcases List.mem_cons.mp hc with h1 | h1
        · exact absurd (h1 ▸ hle) (not_le.mpr h)
        · exact ⟨c, h1, hle⟩
    · rw [if_neg h]
      simp only [true_iff]
      exact ⟨ch - dist (pyGet pts idx) last, List.mem_cons_self _ _, le_of_not_lt h⟩

lemma traverseC_total (cap : ℝ) (pts : List Point) (l : List Int) :
    ∀ t ch last, (∀ c ∈ chargesAlong cap pts l ch last, 0 < c) →
      ∃ ch2 pos2, traverseC cap pts l (t, ch, last) =
        some (t + pathLen pts l last, ch2, pos2) := by
  induction l with
  | nil =>
    intro t ch last _
    exact ⟨ch, last, by simp [traverseC, pathLen]⟩
  | cons idx rest ih =>
    intro t ch last hall
    have h0 : 0 < ch - dist (pyGet pts idx) last := by
      apply hall
      rw [chargesAlong]
      exact List.mem_cons_self _ _
    rw [traverseC, if_pos h0]
    obtain ⟨ch2, pos2, hrec⟩ := ih (t + dist (pyGet pts idx) last)
      (if idx = 0 then cap else ch - dist (pyGet pts idx) last) (pyGet pts idx)
      (fun c hc => hall c (by rw [chargesAlong]; exact List.mem_cons_of_mem _ hc))
    refine ⟨ch2, pos2, ?_⟩
    rw [hrec, pathLen]
    ring_nf

lemma pathLen_nonneg (pts : List Point) (l : List Int) :
    ∀ last, 0 ≤ pathLen pts l last := by
  induction l with
  | nil => intro last; rw [pathLen]
  | cons idx rest ih =>
    intro last
    rw [pathLen]
    have := dist_nonneg (pyGet pts idx) last
    have := ih (pyGet pts idx)
    linarith

/-! ### The loop invariant of `reorder` and its preservation -/

lemma pyGet_zero (rest : List Point) : pyGet (home :: rest) 0 = home := by
  rw [pyGet, if_pos (le_refl 0)]
  rfl

lemma reorderStepC_sentinel {cap : ℝ} {pts : List Point} {st : RState}
    (h : (nearest_neighbor_modified st.unvisited
        (pyGet pts (st.best_order.getLastD 0)) st.robot_charge).1 = max_distance) :
    reorderStepC cap pts st = ⟨st.best_order ++ [0], cap, st.unvisited⟩ := by
  simp only [reorderStepC]
  rw [if_pos h]

lemma reorderStepC_visit {cap : ℝ} {pts : List Point} {st : RState}
    (h : ¬ (nearest_neighbor_modified st.unvisited
        (pyGet pts (st.best_order.getLastD 0)) st.robot_charge).1 = max_distance) :
    reorderStepC cap pts st =
      ⟨st.best_order ++ [get_index pts (nearest_neighbor_modified st.unvisited
          (pyGet pts (st.best_order.getLastD 0)) st.robot_charge).2],
        st.robot_charge - (nearest_neighbor_modified st.unvisited
          (pyGet pts (st.best_order.getLastD 0)) st.robot_charge).1,
        remove st.unvisited (nearest_neighbor_modified st.unvisited
          (pyGet pts (st.best_order.getLastD 0)) st.robot_charge).2⟩ := by
  simp only [reorderStepC]
  rw [if_neg h]

lemma inv_init (cap : ℝ) (rest : List Point) (hcap : 0 < cap) :
    Inv cap rest ⟨[0], cap, rest⟩ := by
  have hz := dist_self home
  refine ⟨rfl, ?_, List.Sublist.refl rest, ?_, ?_, ?_⟩
  · intro i hi
    rcases List.mem_singleton.mp hi with rfl
    constructor
    · exact le_refl 0
    · rw [List.length_cons]
      omega
  · intro k h1 hlen
    simp only [List.length_cons] at hlen
    constructor
    · intro hmem
      rcases List.mem_singleton.mp hmem with h0
      omega
    · intro hnot
      exfalso
      apply hnot
      have hk : k - 1 < rest.length := by omega
      have h2 : (home :: rest).getD k ((0:ℝ), (0:ℝ)) =
          rest.getD (k - 1) ((0:ℝ), (0:ℝ)) := by
        obtain ⟨k', rfl⟩ : ∃ k', k = k' + 1 := ⟨k - 1, by omega⟩
        simp [List.getD_cons_succ]
      rw [h2, List.getD_eq_getElem rest _ hk]
      exact List.getElem_mem hk
  · show dist (pyGet (home :: rest) (([0] : List Int).getLastD 0)) home < cap
    have : (([0] : List Int)).getLastD 0 = 0 := rfl
    rw [this, pyGet_zero, hz]
    exact hcap
  · refine ⟨0, le_refl 0, ?_⟩
    show traverseC cap (home :: rest) [0] ((0:ℝ), cap, pyGet (home :: rest) 0) = _
    rw [traverseC]
    simp only [pyGet_zero]
    rw [if_pos (by rw [hz]; linarith), traverseC]
    simp [curPos, pyGet_zero, hz]

lemma step_preserves {cap : ℝ} {rest : List Point} {st : RState}
    (hcap : 0 < cap) (hnd : (home :: rest).Nodup) (hInv : Inv cap rest st) :
    Inv cap rest (reorderStepC cap (home :: rest) st) ∧
      ((reorderStepC cap (home :: rest) st).best_order = st.best_order ++ [0] ∧
        (reorderStepC cap (home :: rest) st).robot_charge = cap ∧
        (reorderStepC cap (home :: rest) st).unvisited = st.unvisited ∨
        (reorderStepC cap (home :: rest) st).unvisited.length + 1 =
          st.unvisited.length) := by
  have hne : st.best_order ≠ [] := headD_ne_nil hInv.head0
  by_cases hsent : (nearest_neighbor_modified st.unvisited
      (pyGet (home :: rest) (st.best_order.getLastD 0)) st.robot_charge).1 =
      max_distance
  · rw [reorderStepC_sentinel hsent]
    obtain ⟨t, ht0, htrav⟩ := hInv.replay
    have hcur : curPos (home :: rest) ⟨st.best_order ++ [0], cap, st.unvisited⟩ =
        home := by
      rw [curPos, getLastD_concat, pyGet_zero]
    refine ⟨⟨?_, ?_, hInv.sub, ?_, ?_, ?_⟩, Or.inl ⟨rfl, rfl, rfl⟩⟩
    · exact headD_concat hne ▸ hInv.head0
    · intro i hi
      rcases List.mem_append.mp hi with h | h
      · exact hInv.entries i h
      · rcases List.mem_singleton.mp h with rfl
        constructor
        · exact le_refl 0
        · rw [List.length_cons]; omega
    · intro k h1 hlen
      have hk0 : ((k : ℕ) : Int) ≠ 0 := by omega
      rw [show ((k : ℕ) : Int) ∈ st.best_order ++ [0] ↔
          ((k : ℕ) : Int) ∈ st.best_order by
        simp only [List.mem_append, List.mem_singleton]
        constructor
        · rintro (h | h)
          · exact h
          · exact absurd h hk0
        · exact Or.inl]
      exact hInv.visited_iff k h1 hlen
    · rw [hcur, dist_self]
      exact hcap
    · refine ⟨t + dist home (curPos (home :: rest) st), ?_, ?_⟩
      · have := dist_nonneg home (curPos (home :: rest) st)
        linarith
      · show traverseC cap (home :: rest) (st.best_order ++ [0]) _ = _
        rw [traverseC_append, htrav, Option.some_bind, traverseC]
        simp only [pyGet_zero]
        have hret : 0 < st.robot_charge - dist home (curPos (home :: rest) st) := by
          have := hInv.charge_gt
          rw [dist_comm (curPos (home :: rest) st) home] at this
          linarith
        rw [if_pos hret, traverseC, hcur]
        norm_num
  · rw [reorderStepC_visit hsent]
    rcases nearest_neighbor_spec st.unvisited
        (pyGet (home :: rest) (st.best_order.getLastD 0)) st.robot_charge with
      h | ⟨hmem, heq, hfeas⟩
    · exact absurd h hsent
    set nn := nearest_neighbor_modified st.unvisited
      (pyGet (home :: rest) (st.best_order.getLastD 0)) st.robot_charge with hnn
    have hq_rest : nn.2 ∈ rest := hInv.sub.mem hmem
    have hq_pts : nn.2 ∈ home :: rest := List.mem_cons_of_mem home hq_rest
    have hhome_ne : home ≠ nn.2 := by
      intro h
      exact (List.nodup_cons.mp hnd).1 (h ▸ hq_rest)
    have hnd_rest : rest.Nodup := (List.nodup_cons.mp hnd).2
    have hnd_unv : st.unvisited.Nodup := hInv.sub.nodup hnd_rest
    have hidx1 : 1 ≤ get_index (home :: rest) nn.2 := get_index_pos hq_rest hhome_ne
    obtain ⟨hidx0, hidxlen, hidxget⟩ := get_index_spec hq_pts
    have hpy : pyGet (home :: rest) (get_index (home :: rest) nn.2) = nn.2 := by
      rw [pyGet_nonneg _ hidx0, hidxget]
    have hcur : curPos (home :: rest)
        ⟨st.best_order ++ [get_index (home :: rest) nn.2],
          st.robot_charge - nn.1, remove st.unvisited nn.2⟩ = nn.2 := by
      rw [curPos, getLastD_concat, hpy]
    refine ⟨⟨?_, ?_, ?_, ?_, ?_, ?_⟩, Or.inr ?_⟩
    · exact headD_concat hne ▸ hInv.head0
    · intro i hi
      rcases List.mem_append.mp hi with h | h
      · exact hInv.entries i h
      · rcases List.mem_singleton.mp h with rfl
        refine ⟨hidx0, ?_⟩
        rw [List.length_cons] at hidxlen ⊢
        omega
    · exact (remove_sublist _ _).trans hInv.sub
    · intro k h1 hlen
      by_cases hk : ((k : ℕ) : Int) = get_index (home :: rest) nn.2
      · have hkeq : k = (get_index (home :: rest) nn.2).toNat := by omega
        constructor
        · intro _
          rw [hkeq, hidxget]
          intro hmem2
          exact ((mem_remove_iff hnd_unv nn.2 nn.2).mp hmem2).2 rfl
        · intro _
          rw [List.mem_append, List.mem_singleton]
          exact Or.inr hk
      · have hgne : (home :: rest).getD k ((0:ℝ), (0:ℝ)) ≠ nn.2 := by
          intro hgeq
          apply hk
          have hkl : k < (home :: rest).length := hlen
          have h1' : (home :: rest).get ⟨k, hkl⟩ =
              (home :: rest).get ⟨(get_index (home :: rest) nn.2).toNat, hidxlen⟩ := by
            rw [← List.getD_eq_get _ ((0:ℝ), (0:ℝ)) hkl,
              ← List.getD_eq_get _ ((0:ℝ), (0:ℝ)) hidxlen, hgeq, hidxget]
          have := (List.Nodup.get_inj_iff hnd).mp h1'
          have hkk : k = (get_index (home :: rest) nn.2).toNat :=
            congrArg Fin.val this
          omega
        rw [show ((k : ℕ) : Int) ∈ st.best_order ++
              [get_index (home :: rest) nn.2] ↔
            ((k : ℕ) : Int) ∈ st.best_order by
          simp only [List.mem_append, List.mem_singleton]
          constructor
          · rintro (h | h)
            · exact h
            · exact absurd h hk
          · exact Or.inl]
        rw [hInv.visited_iff k h1 hlen]
        constructor
        · intro hnot hmem2
          exact hnot ((mem_remove_iff hnd_unv nn.2 _).mp hmem2).1
        · intro hnot hmem2
          exact hnot ((mem_remove_iff hnd_unv nn.2 _).mpr ⟨hmem2, hgne⟩)
    · rw [hcur]
      show dist nn.2 home < st.robot_charge - nn.1
      have := dist_nonneg nn.2 home
      rw [heq]
      linarith
    · obtain ⟨t, ht0, htrav⟩ := hInv.replay
      have heq2 : nn.1 = dist nn.2 (curPos (home :: rest) st) := heq
      have hfeas2 : dist nn.2 (curPos (home :: rest) st) + dist nn.2 home <
          st.robot_charge := hfeas
      refine ⟨t + dist nn.2 (curPos (home :: rest) st), ?_, ?_⟩
      · have := dist_nonneg nn.2 (curPos (home :: rest) st)
        linarith
      · show traverseC cap (home :: rest)
          (st.best_order ++ [get_index (home :: rest) nn.2]) _ = _
        rw [traverseC_append, htrav, Option.some_bind, traverseC]
        simp only [hpy]
        have hd0 : 0 < st.robot_charge - dist nn.2 (curPos (home :: rest) st) := by
          have := dist_nonneg nn.2 home
          linarith
        rw [if_pos hd0, if_neg (show ¬ get_index (home :: rest) nn.2 = 0 by omega),
          traverseC, hcur, heq2]
    · exact length_remove hmem

/-- From a state where some unvisited candidate is feasible and nearer
than the sentinel, the step visits a point, shrinking `unvisited`. -/
lemma step_visits {cap : ℝ} {pts : List Point} {st : RState}
    (h : ∃ q ∈ st.unvisited, distance_modified q
        (pyGet pts (st.best_order.getLastD 0)) st.robot_charge < max_distance) :
    (reorderStepC cap pts st).unvisited.length + 1 = st.unvisited.length := by
  obtain ⟨q, hq, hlt⟩ := h
  have hne : ¬ (nearest_neighbor_modified st.unvisited
      (pyGet pts (st.best_order.getLastD 0)) st.robot_charge).1 = max_distance :=
    ne_of_lt (nearest_neighbor_lt hq hlt)
  rw [reorderStepC_visit hne]
  rcases nearest_neighbor_spec st.unvisited
      (pyGet pts (st.best_order.getLastD 0)) st.robot_charge with h | ⟨hmem, _, _⟩
  · exact absurd h hne
  · exact length_remove hmem

lemma reorderLoopC_mono {cap : ℝ} {pts : List Point} {o : List Int} :
    ∀ {fuel : ℕ} {st : RState}, reorderLoopC cap pts fuel st = some o →
      reorderLoopC cap pts (fuel + 1) st = some o := by
  intro fuel
  induction fuel with
  | zero =>
    intro st h
    rw [reorderLoopC] at h
    by_cases hany : anyNonzero st.unvisited
    · rw [if_pos hany] at h
      exact absurd h (by simp)
    · rw [if_neg hany] at h
      rw [reorderLoopC, if_neg hany]
      exact h
  | succ n ih =>
    intro st h
    rw [reorderLoopC] at h
    by_cases hany : anyNonzero st.unvisited
    · rw [if_pos hany] at h
      rw [reorderLoopC, if_pos hany]
      exact ih h
    · rw [if_neg hany] at h
      rw [reorderLoopC, if_neg hany]
      exact h

lemma anyNonzero_iff {rest unv : List Point}
    (hz : ∀ p ∈ rest, p ≠ ((0:ℝ), (0:ℝ))) (hsub : unv.Sublist rest) :
    anyNonzero unv ↔ unv ≠ [] := by
  constructor
  · rintro ⟨p, hp, _⟩ hnil
    rw [hnil] at hp
    exact List.not_mem_nil p hp
  · intro hne
    obtain ⟨p, hp⟩ := List.exists_mem_of_ne_nil unv hne
    refine ⟨p, hp, ?_⟩
    have hp0 : p ≠ ((0:ℝ), (0:ℝ)) := hz p (hsub.mem hp)
    by_contra hcon
    push_neg at hcon
    exact hp0 (Prod.ext hcon.1 hcon.2)

/-- Termination with validity: from any invariant state, `2·k + 1` fuel
suffices to finish the loop when at most `k` points remain, and the
final state still satisfies the invariant with nothing left unvisited. -/
lemma loop_valid {cap : ℝ} {rest : List Point} (hcap : 0 < cap)
    (hnd : (home :: rest).Nodup)
    (hz : ∀ p ∈ rest, p ≠ ((0:ℝ), (0:ℝ)))
    (hreach : ∀ p ∈ rest, 2 * dist p home < cap)
    (hfar : ∀ p ∈ rest, dist p home < max_distance) :
    ∀ k (st : RState), Inv cap rest st → st.unvisited.length ≤ k →
      ∃ stf : RState, Inv cap rest stf ∧ stf.unvisited = [] ∧
        reorderLoopC cap (home :: rest) (2 * k + 1) st = some stf.best_order := by
  intro k
  induction k with
  | zero =>
    intro st hInv hlen
    have hnil : st.unvisited = [] := List.length_eq_zero.mp (Nat.le_zero.mp hlen)
    have hany : ¬ anyNonzero st.unvisited := by
      rw [anyNonzero_iff hz hInv.sub]
      simp [hnil]
    refine ⟨st, hInv, hnil, ?_⟩
    show reorderLoopC cap (home :: rest) (0 + 1) st = some st.best_order
    rw [reorderLoopC, if_neg hany]
  | succ k ih =>
    intro st hInv hlen
    by_cases hnil : st.unvisited = []
    · have hany : ¬ anyNonzero st.unvisited := by
        rw [anyNonzero_iff hz hInv.sub]
        simp [hnil]
      refine ⟨st, hInv, hnil, ?_⟩
      rw [show 2 * (k + 1) + 1 = (2 * k + 2) + 1 by ring]
      rw [reorderLoopC, if_neg hany]
    · have hany : anyNonzero st.unvisited := (anyNonzero_iff hz hInv.sub).mpr hnil
      rw [show 2 * (k + 1) + 1 = (2 * k + 2) + 1 by ring, reorderLoopC, if_pos hany]
      obtain ⟨hInv1, hdisj⟩ := step_preserves hcap hnd hInv
      rcases hdisj with ⟨hbo, hch, hunv⟩ | hprog
      · -- recharge step: the next iteration must visit a point
        set st1 := reorderStepC cap (home :: rest) st with hst1
        have hany1 : anyNonzero st1.unvisited := by
          rw [hunv]
          exact hany
        rw [reorderLoopC, if_pos hany1]
        have hlast1 : st1.best_order.getLastD 0 = 0 := by
          rw [hbo, getLastD_concat]
        obtain ⟨q, hq⟩ := List.exists_mem_of_ne_nil st.unvisited hnil
        have hq1 : q ∈ st1.unvisited := by rw [hunv]; exact hq
        have hq_rest : q ∈ rest := hInv.sub.mem hq
        have hfeas : distance_modified q
            (pyGet (home :: rest) (st1.best_order.getLastD 0))
            st1.robot_charge < max_distance := by
          rw [hlast1, pyGet_zero, hch]
          rw [distance_modified_of_feasible (by
            have := hreach q hq_rest
            linarith)]
          exact hfar q hq_rest
        have hprog1 := @step_visits cap (home :: rest) st1 ⟨q, hq1, hfeas⟩
        obtain ⟨hInv2, _⟩ := step_preserves hcap hnd hInv1
        have hlen2 : (reorderStepC cap (home :: rest) st1).unvisited.length ≤ k := by
          rw [hunv] at hprog1
          omega
        exact ih _ hInv2 hlen2
      · have hlen1 : (reorderStepC cap (home :: rest) st).unvisited.length ≤ k := by
          omega
        obtain ⟨stf, hInvf, hnilf, hloop⟩ := ih _ hInv1 hlen1
        exact ⟨stf, hInvf, hnilf, reorderLoopC_mono hloop⟩

lemma headD_neg {l : List Int} (h : l.headD 1 = 0) : l.headD (-1) = 0 := by
  cases l with
  | nil => exact absurd h (by norm_num)
  | cons a t => exact h

/-- Main soundness result, with the capacity as a parameter: on a
duplicate-free point set whose non-depot points avoid the exact origin
and are strictly round-trip reachable (and nearer than the sentinel),
the builder terminates within `2·N + 1` iterations and its order, with
the final depot id appended, passes the validator with a non-negative
total length. -/
theorem reorderC_valid {cap : ℝ} (rest : List Point) (hcap : 0 < cap)
    (hnd : (home :: rest).Nodup)
    (hz : ∀ p ∈ rest, p ≠ ((0:ℝ), (0:ℝ)))
    (hreach : ∀ p ∈ rest, 2 * dist p home < cap)
    (hfar : ∀ p ∈ rest, dist p home < max_distance) :
    ∃ ord, reorderC cap (home :: rest) (2 * rest.length + 1) = some ord ∧
      ∃ L, check_orderC cap (home :: rest) (ord ++ [0]) = Except.ok L ∧ 0 ≤ L := by
  obtain ⟨stf, hInvf, hnilf, hloop⟩ := loop_valid hcap hnd hz hreach hfar
    rest.length ⟨[0], cap, rest⟩ (inv_init cap rest hcap) (le_refl _)
  refine ⟨stf.best_order, hloop, ?_⟩
  have hne : stf.best_order ≠ [] := headD_ne_nil hInvf.head0
  have hend : (stf.best_order ++ [0]).headD (-1) = 0 ∧
      (stf.best_order ++ [0]).getLastD (-1) = 0 := by
    constructor
    · rw [headD_concat hne]
      exact headD_neg hInvf.head0
    · exact getLastD_concat _ _ _
  have hcov : ∀ i : Int, i ∈ stf.best_order ++ [0] ↔
      0 ≤ i ∧ i < ((home :: rest).length : Int) := by
    intro i
    constructor
    · intro hi
      rcases List.mem_append.mp hi with h | h
      · exact hInvf.entries i h
      · rcases List.mem_singleton.mp h with rfl
        refine ⟨le_refl 0, ?_⟩
        rw [List.length_cons]
        push_cast
        omega
    · rintro ⟨h0, hlen⟩
      by_cases hi0 : i = 0
      · subst hi0
        exact List.mem_append.mpr (Or.inr (List.mem_singleton.mpr rfl))
      · have h1 : 1 ≤ i.toNat := by omega
        have h2 : i.toNat < (home :: rest).length := by omega
        have h3 := (hInvf.visited_iff i.toNat h1 h2).mpr (by
          rw [hnilf]
          exact List.not_mem_nil _)
        rw [Int.toNat_of_nonneg h0] at h3
        exact List.mem_append.mpr (Or.inl h3)
  obtain ⟨t, ht0, htrav⟩ := hInvf.replay
  have hret : 0 < stf.robot_charge - dist home (curPos (home :: rest) stf) := by
    have := hInvf.charge_gt
    rw [dist_comm (curPos (home :: rest) stf) home] at this
    linarith
  refine ⟨t + dist home (curPos (home :: rest) stf), ?_, ?_⟩
  · rw [check_orderC, if_pos hend, if_pos hcov, traverseC_append, htrav,
      Option.some_bind, traverseC]
    simp only [pyGet_zero]
    rw [if_pos hret, traverseC]
  · have := dist_nonneg home (curPos (home :: rest) stf)
    linarith

/-! ### Single-point sets: termination case analysis and non-termination -/

lemma loop_empty (cap : ℝ) (pts : List Point) (fuel : ℕ) (ord : List Int)
    (ch : ℝ) : reorderLoopC cap pts fuel ⟨ord, ch, []⟩ = some ord := by
  have hany : ¬ anyNonzero ([] : List Point) := by
    rintro ⟨q, hq, _⟩
    exact List.not_mem_nil q hq
  cases fuel with
  | zero => rw [reorderLoopC, if_neg hany]
  | succ n => rw [reorderLoopC, if_neg hany]

/-- If the scan from home at full charge yields the sentinel for the sole
remaining point, the loop recharges forever: it returns `none` at every
fuel. -/
lemma single_sentinel_loop {cap : ℝ} {p : Point} (hany : anyNonzero [p])
    (hsent : (nearest_neighbor_modified [p] home cap).1 = max_distance) :
    ∀ (fuel : ℕ) (ord : List Int), ord.getLastD 0 = 0 →
      reorderLoopC cap [home, p] fuel ⟨ord, cap, [p]⟩ = none := by
  intro fuel
  induction fuel with
  | zero =>
    intro ord hlast
    rw [reorderLoopC, if_pos hany]
  | succ n ih =>
    intro ord hlast
    rw [reorderLoopC, if_pos hany]
    have hsent' : (nearest_neighbor_modified
        ((⟨ord, cap, [p]⟩ : RState).unvisited)
        (pyGet [home, p] ((⟨ord, cap, [p]⟩ : RState).best_order.getLastD 0))
        (⟨ord, cap, [p]⟩ : RState).robot_charge).1 = max_distance := by
      show (nearest_neighbor_modified [p] (pyGet [home, p] (ord.getLastD 0)) cap).1 =
        max_distance
      rw [hlast]
      exact (pyGet_zero [p]) ▸ hsent
    rw [reorderStepC_sentinel hsent']
    exact ih (ord ++ [0]) (getLastD_concat _ _ _)

/-- A point whose round trip does not fit strictly inside the capacity
makes the builder loop forever on the single-point set. -/
lemma single_infeasible_nonterm {cap : ℝ} {p : Point}
    (hp : p ≠ ((0:ℝ), (0:ℝ))) (h2d : cap ≤ 2 * dist p home) :
    ∀ fuel, reorderC cap [home, p] fuel = none := by
  intro fuel
  have hany : anyNonzero [p] := by
    refine ⟨p, List.mem_singleton.mpr rfl, ?_⟩
    by_contra hcon
    push_neg at hcon
    exact hp (Prod.ext hcon.1 hcon.2)
  have hdm : distance_modified p home cap = max_distance :=
    distance_modified_of_infeasible (by linarith)
  have hsent : (nearest_neighbor_modified [p] home cap).1 = max_distance := by
    rw [nearest_neighbor_modified, nnAux_const (fun q hq => by
      rcases List.mem_singleton.mp hq with rfl
      exact hdm) home]
  exact single_sentinel_loop hany hsent fuel [0] rfl

/-- The visiting step on the fresh single-point state. -/
lemma single_step_eq {cap : ℝ} {p : Point} (hp_home : home ≠ p)
    (hsent : ¬ (nearest_neighbor_modified [p] home cap).1 = max_distance) :
    reorderStepC cap [home, p] ⟨[0], cap, [p]⟩ =
      ⟨[0, 1], cap - (nearest_neighbor_modified [p] home cap).1, []⟩ := by
  have h1 : (([0] : List Int)).getLastD 0 = 0 := rfl
  simp only [reorderStepC, h1, pyGet_zero]
  rw [if_neg hsent]
  rcases nearest_neighbor_spec [p] home cap with hs | ⟨hmem, _, _⟩
  · exact absurd hs hsent
  · have hnp : (nearest_neighbor_modified [p] home cap).2 = p :=
      List.mem_singleton.mp hmem
    rw [hnp]
    have hgi : get_index [home, p] p = 1 := by
      rw [get_index, get_indexAux, if_neg hp_home, get_indexAux, if_pos rfl]
      norm_num
    have hrm : remove [p] p = [] := by
      rw [remove, if_pos rfl]
    rw [hgi, hrm]
    rfl

/-- Any terminating run of the builder on a single-point set (the point
distinct from the depot) produces either `[0]` (the origin-point case)
or `[0, 1]`; in particular no recharge ever occurs. -/
lemma single_reorder_cases {cap : ℝ} {p : Point} (hp_home : home ≠ p) :
    ∀ {fuel : ℕ} {o : List Int}, reorderC cap [home, p] fuel = some o →
      o = [0] ∨ o = [0, 1] := by
  intro fuel o h
  rw [reorderC, show ([home, p] : List Point).drop 1 = [p] from rfl] at h
  by_cases hany : anyNonzero [p]
  · cases fuel with
    | zero =>
      rw [reorderLoopC, if_pos hany] at h
      exact absurd h (by simp)
    | succ n =>
      rw [reorderLoopC, if_pos hany] at h
      by_cases hsent : (nearest_neighbor_modified [p] home cap).1 = max_distance
      · have hstep : reorderStepC cap [home, p] ⟨[0], cap, [p]⟩ =
            ⟨[0] ++ [0], cap, [p]⟩ :=
          reorderStepC_sentinel (by
            show (nearest_neighbor_modified [p]
              (pyGet [home, p] ((([0] : List Int)).getLastD 0)) cap).1 =
              max_distance
            rw [show (([0] : List Int)).getLastD 0 = 0 from rfl, pyGet_zero]
            exact hsent)
        rw [hstep, single_sentinel_loop hany hsent n ([0] ++ [0])
          (getLastD_concat _ _ _)] at h
        exact absurd h (by simp)
      · rw [single_step_eq hp_home hsent, loop_empty] at h
        right
        exact (Option.some_injective _ h).symm
  · have h0 : o = [0] := by
      cases fuel with
      | zero =>
        rw [reorderLoopC, if_neg hany] at h
        exact (Option.some_injective _ h).symm
      | succ n =>
        rw [reorderLoopC, if_neg hany] at h
        exact (Option.some_injective _ h).symm
    exact Or.inl h0

/-! ### Characterization of the validator -/

lemma check_orderC_cases (cap : ℝ) (pts : List Point) (order : List Int) :
    (¬ startsEndsAtDepot order →
      check_orderC cap pts order = Except.error CheckErr.malformedEndpoints) ∧
    (startsEndsAtDepot order → ¬ visitsExactly pts order →
      check_orderC cap pts order = Except.error CheckErr.incompleteVisitation) ∧
    (startsEndsAtDepot order → visitsExactly pts order →
      (∃ c ∈ chargesAlong cap pts order cap (pyGet pts 0), c ≤ 0) →
      check_orderC cap pts order = Except.error CheckErr.constraintViolation) ∧
    (startsEndsAtDepot order → visitsExactly pts order →
      (∀ c ∈ chargesAlong cap pts order cap (pyGet pts 0), 0 < c) →
      check_orderC cap pts order =
        Except.ok (pathLen pts order (pyGet pts 0))) := by
  refine ⟨?_, ?_, ?_, ?_⟩
  · intro hse
    rw [check_orderC,
      if_neg (show ¬ (order.headD (-1) = 0 ∧ order.getLastD (-1) = 0) from hse)]
  · intro hse hcov
    rw [check_orderC,
      if_pos (show order.headD (-1) = 0 ∧ order.getLastD (-1) = 0 from hse),
      if_neg (show ¬ (∀ i : Int, i ∈ order ↔ 0 ≤ i ∧ i < (pts.length : Int))
        from hcov)]
  · intro hse hcov hviol
    have htrav : traverseC cap pts order ((0:ℝ), cap, pyGet pts 0) = none :=
      (traverseC_none_iff cap pts order 0 cap (pyGet pts 0)).mpr hviol
    rw [check_orderC,
      if_pos (show order.headD (-1) = 0 ∧ order.getLastD (-1) = 0 from hse),
      if_pos (show (∀ i : Int, i ∈ order ↔ 0 ≤ i ∧ i < (pts.length : Int))
        from hcov),
      htrav]
  · intro hse hcov hall
    obtain ⟨ch2, pos2, htrav⟩ :=
      traverseC_total cap pts order 0 cap (pyGet pts 0) hall
    rw [check_orderC,
      if_pos (show order.headD (-1) = 0 ∧ order.getLastD (-1) = 0 from hse),
      if_pos (show (∀ i : Int, i ∈ order ↔ 0 ≤ i ∧ i < (pts.length : Int))
        from hcov),
      htrav]
    rw [zero_add]

lemma exists_viol_or_all_pos (l : List ℝ) :
    (∃ c ∈ l, c ≤ 0) ∨ (∀ c ∈ l, 0 < c) := by
  by_cases h : ∃ c ∈ l, c ≤ 0
  · exact Or.inl h
  · right
    intro c hc
    by_contra hle
    exact h ⟨c, hc, le_of_not_lt hle⟩

/-- Concrete distance of a point on the horizontal line through home. -/
lemma dist_home_line (a : ℝ) : dist (a, 1/2) home = |a - 1/2| := by
  rw [show home = ((1:ℝ)/2, (1:ℝ)/2) from rfl]
  exact dist_line a (1/2)

/-! ### Concrete evaluation of the two capacity runs on `c7pts` -/

lemma c7runA : reorderC (41/10) c7pts 8 = some [0, 5, 2, 4, 0, 3, 1] := by
  have eA0 : reorderStepC (41/10) c7pts ⟨[0], 41/10, [(-29/20, 1/2), (-1/20, 1/2), (-13/10, 1/2), (17/10, 1/2), (3/4, 1/2)]⟩ =
      ⟨[0, 5], 77/20, [(-29/20, 1/2), (-1/20, 1/2), (-13/10, 1/2), (17/10, 1/2)]⟩ := by
    norm_num [reorderStepC, nearest_neighbor_modified, nnAux, distance_modified,
    get_index, get_indexAux, remove, pyGet, c7pts, home, max_distance,
    dist_line, Prod.ext_iff, abs_of_nonneg, abs_of_nonpos, RState.mk.injEq, Int.toNat]
  have eA1 : reorderStepC (41/10) c7pts ⟨[0, 5], 77/20, [(-29/20, 1/2), (-1/20, 1/2), (-13/10, 1/2), (17/10, 1/2)]⟩ =
      ⟨[0, 5, 2], 61/20, [(-29/20, 1/2), (-13/10, 1/2), (17/10, 1/2)]⟩ := by
    norm_num [reorderStepC, nearest_neighbor_modified, nnAux, distance_modified,
    get_index, get_indexAux, remove, pyGet, c7pts, home, max_distance,
    dist_line, Prod.ext_iff, abs_of_nonneg, abs_of_nonpos, RState.mk.injEq, Int.toNat]
  have eA2 : reorderStepC (41/10) c7pts ⟨[0, 5, 2], 61/20, [(-29/20, 1/2), (-13/10, 1/2), (17/10, 1/2)]⟩ =
      ⟨[0, 5, 2, 4], 13/10, [(-29/20, 1/2), (-13/10, 1/2)]⟩ := by
    norm_num [reorderStepC, nearest_neighbor_modified, nnAux, distance_modified,
    get_index, get_indexAux, remove, pyGet, c7pts, home, max_distance,
    dist_line, Prod.ext_iff, abs_of_nonneg, abs_of_nonpos, RState.mk.injEq, Int.toNat]
  have eA3 : reorderStepC (41/10) c7pts ⟨[0, 5, 2, 4], 13/10, [(-29/20, 1/2), (-13/10, 1/2)]⟩ =
      ⟨[0, 5, 2, 4, 0], 41/10, [(-29/20, 1/2), (-13/10, 1/2)]⟩ := by
    norm_num [reorderStepC, nearest_neighbor_modified, nnAux, distance_modified,
    get_index, get_indexAux, remove, pyGet, c7pts, home, max_distance,
    dist_line, Prod.ext_iff, abs_of_nonneg, abs_of_nonpos, RState.mk.injEq, Int.toNat]
  have eA4 : reorderStepC (41/10) c7pts ⟨[0, 5, 2, 4, 0], 41/10, [(-29/20, 1/2), (-13/10, 1/2)]⟩ =
      ⟨[0, 5, 2, 4, 0, 3], 23/10, [(-29/20, 1/2)]⟩ := by
    norm_num [reorderStepC, nearest_neighbor_modified, nnAux, distance_modified,
    get_index, get_indexAux, remove, pyGet, c7pts, home, max_distance,
    dist_line, Prod.ext_iff, abs_of_nonneg, abs_of_nonpos, RState.mk.injEq, Int.toNat]
  have eA5 : reorderStepC (41/10) c7pts ⟨[0, 5, 2, 4, 0, 3], 23/10, [(-29/20, 1/2)]⟩ =
      ⟨[0, 5, 2, 4, 0, 3, 1], 43/20, []⟩ := by
    norm_num [reorderStepC, nearest_neighbor_modified, nnAux, distance_modified,
    get_index, get_indexAux, remove, pyGet, c7pts, home, max_distance,
    dist_line, Prod.ext_iff, abs_of_nonneg, abs_of_nonpos, RState.mk.injEq, Int.toNat]
  have aA0 : anyNonzero [(-29/20, 1/2), (-1/20, 1/2), (-13/10, 1/2), (17/10, 1/2), (3/4, 1/2)] :=
    ⟨(-29/20, 1/2), List.mem_cons_self _ _, Or.inl (by norm_num)⟩
  have aA1 : anyNonzero [(-29/20, 1/2), (-1/20, 1/2), (-13/10, 1/2), (17/10, 1/2)] :=
    ⟨(-29/20, 1/2), List.mem_cons_self _ _, Or.inl (by norm_num)⟩
  have aA2 : anyNonzero [(-29/20, 1/2), (-13/10, 1/2), (17/10, 1/2)] :=
    ⟨(-29/20, 1/2), List.mem_cons_self _ _, Or.inl (by norm_num)⟩
  have aA3 : anyNonzero [(-29/20, 1/2), (-13/10, 1/2)] :=
    ⟨(-29/20, 1/2), List.mem_cons_self _ _, Or.inl (by norm_num)⟩
  have aA4 : anyNonzero [(-29/20, 1/2), (-13/10, 1/2)] :=
    ⟨(-29/20, 1/2), List.mem_cons_self _ _, Or.inl (by norm_num)⟩
  have aA5 : anyNonzero [(-29/20, 1/2)] :=
    ⟨(-29/20, 1/2), List.mem_cons_self _ _, Or.inl (by norm_num)⟩
  rw [reorderC]
  show reorderLoopC (41/10) c7pts (7+1) ⟨[0], 41/10, [(-29/20, 1/2), (-1/20, 1/2), (-13/10, 1/2), (17/10, 1/2), (3/4, 1/2)]⟩ = some [0, 5, 2, 4, 0, 3, 1]
  rw [reorderLoopC, if_pos aA0, eA0]
  show reorderLoopC (41/10) c7pts (6+1) ⟨[0, 5], 77/20, [(-29/20, 1/2), (-1/20, 1/2), (-13/10, 1/2), (17/10, 1/2)]⟩ = some [0, 5, 2, 4, 0, 3, 1]
  rw [reorderLoopC, if_pos aA1, eA1]
  show reorderLoopC (41/10) c7pts (5+1) ⟨[0, 5, 2], 61/20, [(-29/20, 1/2), (-13/10, 1/2), (17/10, 1/2)]⟩ = some [0, 5, 2, 4, 0, 3, 1]
  rw [reorderLoopC, if_pos aA2, eA2]
  show reorderLoopC (41/10) c7pts (4+1) ⟨[0, 5, 2, 4], 13/10, [(-29/20, 1/2), (-13/10, 1/2)]⟩ = some [0, 5, 2, 4, 0, 3, 1]
  rw [reorderLoopC, if_pos aA3, eA3]
  show reorderLoopC (41/10) c7pts (3+1) ⟨[0, 5, 2, 4, 0], 41/10, [(-29/20, 1/2), (-13/10, 1/2)]⟩ = some [0, 5, 2, 4, 0, 3, 1]
  rw [reorderLoopC, if_pos aA4, eA4]
  show reorderLoopC (41/10) c7pts (2+1) ⟨[0, 5, 2, 4, 0, 3], 23/10, [(-29/20, 1/2)]⟩ = some [0, 5, 2, 4, 0, 3, 1]
  rw [reorderLoopC, if_pos aA5, eA5]
  exact loop_empty _ _ _ _ _

lemma c7runB : reorderC (21/5) c7pts 8 = some [0, 5, 2, 3, 0, 4, 0, 1] := by
  have eB0 : reorderStepC (21/5) c7pts ⟨[0], 21/5, [(-29/20, 1/2), (-1/20, 1/2), (-13/10, 1/2), (17/10, 1/2), (3/4, 1/2)]⟩ =
      ⟨[0, 5], 79/20, [(-29/20, 1/2), (-1/20, 1/2), (-13/10, 1/2), (17/10, 1/2)]⟩ := by
    norm_num [reorderStepC, nearest_neighbor_modified, nnAux, distance_modified,
    get_index, get_indexAux, remove, pyGet, c7pts, home, max_distance,
    dist_line, Prod.ext_iff, abs_of_nonneg, abs_of_nonpos, RState.mk.injEq, Int.toNat]
  have eB1 : reorderStepC (21/5) c7pts ⟨[0, 5], 79/20, [(-29/20, 1/2), (-1/20, 1/2), (-13/10, 1/2), (17/10, 1/2)]⟩ =
      ⟨[0, 5, 2], 63/20, [(-29/20, 1/2), (-13/10, 1/2), (17/10, 1/2)]⟩ := by
    norm_num [reorderStepC, nearest_neighbor_modified, nnAux, distance_modified,
    get_index, get_indexAux, remove, pyGet, c7pts, home, max_distance,
    dist_line, Prod.ext_iff, abs_of_nonneg, abs_of_nonpos, RState.mk.injEq, Int.toNat]
  have eB2 : reorderStepC (21/5) c7pts ⟨[0, 5, 2], 63/20, [(-29/20, 1/2), (-13/10, 1/2), (17/10, 1/2)]⟩ =
      ⟨[0, 5, 2, 3], 19/10, [(-29/20, 1/2), (17/10, 1/2)]⟩ := by
    norm_num [reorderStepC, nearest_neighbor_modified, nnAux, distance_modified,
    get_index, get_indexAux, remove, pyGet, c7pts, home, max_distance,
    dist_line, Prod.ext_iff, abs_of_nonneg, abs_of_nonpos, RState.mk.injEq, Int.toNat]
  have eB3 : reorderStepC (21/5) c7pts ⟨[0, 5, 2, 3], 19/10, [(-29/20, 1/2), (17/10, 1/2)]⟩ =
      ⟨[0, 5, 2, 3, 0], 21/5, [(-29/20, 1/2), (17/10, 1/2)]⟩ := by
    norm_num [reorderStepC, nearest_neighbor_modified, nnAux, distance_modified,
    get_index, get_indexAux, remove, pyGet, c7pts, home, max_distance,
    dist_line, Prod.ext_iff, abs_of_nonneg, abs_of_nonpos, RState.mk.injEq, Int.toNat]
  have eB4 : reorderStepC (21/5) c7pts ⟨[0, 5, 2, 3, 0], 21/5, [(-29/20, 1/2), (17/10, 1/2)]⟩ =
      ⟨[0, 5, 2, 3, 0, 4], 3, [(-29/20, 1/2)]⟩ := by
    norm_num [reorderStepC, nearest_neighbor_modified, nnAux, distance_modified,
    get_index, get_indexAux, remove, pyGet, c7pts, home, max_distance,
    dist_line, Prod.ext_iff, abs_of_nonneg, abs_of_nonpos, RState.mk.injEq, Int.toNat]
  have eB5 : reorderStepC (21/5) c7pts ⟨[0, 5, 2, 3, 0, 4], 3, [(-29/20, 1/2)]⟩ =
      ⟨[0, 5, 2, 3, 0, 4, 0], 21/5, [(-29/20, 1/2)]⟩ := by
    norm_num [reorderStepC, nearest_neighbor_modified, nnAux, distance_modified,
    get_index, get_indexAux, remove, pyGet, c7pts, home, max_distance,
    dist_line, Prod.ext_iff, abs_of_nonneg, abs_of_nonpos, RState.mk.injEq, Int.toNat]
  have eB6 : reorderStepC (21/5) c7pts ⟨[0, 5, 2, 3, 0, 4, 0], 21/5, [(-29/20, 1/2)]⟩ =
      ⟨[0, 5, 2, 3, 0, 4, 0, 1], 9/4, []⟩ := by
    norm_num [reorderStepC, nearest_neighbor_modified, nnAux, distance_modified,
    get_index, get_indexAux, remove, pyGet, c7pts, home, max_distance,
    dist_line, Prod.ext_iff, abs_of_nonneg, abs_of_nonpos, RState.mk.injEq, Int.toNat]
  have aB0 : anyNonzero [(-29/20, 1/2), (-1/20, 1/2), (-13/10, 1/2), (17/10, 1/2), (3/4, 1/2)] :=
    ⟨(-29/20, 1/2), List.mem_cons_self _ _, Or.inl (by norm_num)⟩
  have aB1 : anyNonzero [(-29/20, 1/2), (-1/20, 1/2), (-13/10, 1/2), (17/10, 1/2)] :=
    ⟨(-29/20, 1/2), List.mem_cons_self _ _, Or.inl (by norm_num)⟩
  have aB2 : anyNonzero [(-29/20, 1/2), (-13/10, 1/2), (17/10, 1/2)] :=
    ⟨(-29/20, 1/2), List.mem_cons_self _ _, Or.inl (by norm_num)⟩
  have aB3 : anyNonzero [(-29/20, 1/2), (17/10, 1/2)] :=
    ⟨(-29/20, 1/2), List.mem_cons_self _ _, Or.inl (by norm_num)⟩
  have aB4 : anyNonzero [(-29/20, 1/2), (17/10, 1/2)] :=
    ⟨(-29/20, 1/2), List.mem_cons_self _ _, Or.inl (by norm_num)⟩
  have aB5 : anyNonzero [(-29/20, 1/2)] :=
    ⟨(-29/20, 1/2), List.mem_cons_self _ _, Or.inl (by norm_num)⟩
  have aB6 : anyNonzero [(-29/20, 1/2)] :=
    ⟨(-29/20, 1/2), List.mem_cons_self _ _, Or.inl (by norm_num)⟩
  rw [reorderC]
  show reorderLoopC (21/5) c7pts (7+1) ⟨[0], 21/5, [(-29/20, 1/2), (-1/20, 1/2), (-13/10, 1/2), (17/10, 1/2), (3/4, 1/2)]⟩ = some [0, 5, 2, 3, 0, 4, 0, 1]
  rw [reorderLoopC, if_pos aB0, eB0]
  show reorderLoopC (21/5) c7pts (6+1) ⟨[0, 5], 79/20, [(-29/20, 1/2), (-1/20, 1/2), (-13/10, 1/2), (17/10, 1/2)]⟩ = some [0, 5, 2, 3, 0, 4, 0, 1]
  rw [reorderLoopC, if_pos aB1, eB1]
  show reorderLoopC (21/5) c7pts (5+1) ⟨[0, 5, 2], 63/20, [(-29/20, 1/2), (-13/10, 1/2), (17/10, 1/2)]⟩ = some [0, 5, 2, 3, 0, 4, 0, 1]
  rw [reorderLoopC, if_pos aB2, eB2]
  show reorderLoopC (21/5) c7pts (4+1) ⟨[0, 5, 2, 3], 19/10, [(-29/20, 1/2), (17/10, 1/2)]⟩ = some [0, 5, 2, 3, 0, 4, 0, 1]
  rw [reorderLoopC, if_pos aB3, eB3]
  show reorderLoopC (21/5) c7pts (3+1) ⟨[0, 5, 2, 3, 0], 21/5, [(-29/20, 1/2), (17/10, 1/2)]⟩ = some [0, 5, 2, 3, 0, 4, 0, 1]
  rw [reorderLoopC, if_pos aB4, eB4]
  show reorderLoopC (21/5) c7pts (2+1) ⟨[0, 5, 2, 3, 0, 4], 3, [(-29/20, 1/2)]⟩ = some [0, 5, 2, 3, 0, 4, 0, 1]
  rw [reorderLoopC, if_pos aB5, eB5]
  show reorderLoopC (21/5) c7pts (1+1) ⟨[0, 5, 2, 3, 0, 4, 0], 21/5, [(-29/20, 1/2)]⟩ = some [0, 5, 2, 3, 0, 4, 0, 1]
  rw [reorderLoopC, if_pos aB6, eB6]
  exact loop_empty _ _ _ _ _

lemma c7checkA : check_orderC (41/10) c7pts [0, 5, 2, 4, 0, 3, 1, 0] =
    Except.ok (79/10) := by
  have hend : (([0, 5, 2, 4, 0, 3, 1, 0] : List Int)).headD (-1) = 0 ∧
      (([0, 5, 2, 4, 0, 3, 1, 0] : List Int)).getLastD (-1) = 0 := by norm_num
  have hcov : ∀ i : Int, i ∈ ([0, 5, 2, 4, 0, 3, 1, 0] : List Int) ↔
      0 ≤ i ∧ i < (c7pts.length : Int) := by
    intro i
    simp only [c7pts, List.mem_cons, List.not_mem_nil, or_false, List.length_cons,
      List.length_nil]
    omega
  rw [check_orderC, if_pos hend, if_pos hcov]
  norm_num [traverseC, pyGet, c7pts, home, dist_line, abs_of_nonneg, abs_of_nonpos,
    Int.toNat]

lemma c7checkB : check_orderC (21/5) c7pts [0, 5, 2, 3, 0, 4, 0, 1, 0] =
    Except.ok (52/5) := by
  have hend : (([0, 5, 2, 3, 0, 4, 0, 1, 0] : List Int)).headD (-1) = 0 ∧
      (([0, 5, 2, 3, 0, 4, 0, 1, 0] : List Int)).getLastD (-1) = 0 := by norm_num
  have hcov : ∀ i : Int, i ∈ ([0, 5, 2, 3, 0, 4, 0, 1, 0] : List Int) ↔
      0 ≤ i ∧ i < (c7pts.length : Int) := by
    intro i
    simp only [c7pts, List.mem_cons, List.not_mem_nil, or_false, List.length_cons,
      List.length_nil]
    omega
  rw [check_orderC, if_pos hend, if_pos hcov]
  norm_num [traverseC, pyGet, c7pts, home, dist_line, abs_of_nonneg, abs_of_nonpos,
    Int.toNat]

/-! ### The claims -/

/-- C1 counterexample: the point set consisting of the depot and the
single point exactly at the origin.  The origin is strictly round-trip
reachable, yet the builder's loop guard (`unvisited_points.any()`, false
on an all-zero residual array) exits immediately, so the returned order
with the final depot id appended omits identifier 1 and the validator
rejects it with `IncompleteVisitation`. -/
theorem C1_counterexample :
    2 * dist ((0:ℝ), (0:ℝ)) home < max_charge ∧
    reorder [home, ((0:ℝ), (0:ℝ))] 5 = some [0] ∧
    check_order [home, ((0:ℝ), (0:ℝ))] ([0] ++ [0]) =
      Except.error CheckErr.incompleteVisitation := by
  refine ⟨origin_reachable, ?_, ?_⟩
  · have hany : ¬ anyNonzero [((0:ℝ), (0:ℝ))] := by
      rintro ⟨p, hp, hne⟩
      rcases List.mem_singleton.mp hp with rfl
      rcases hne with h | h <;> exact h rfl
    rw [reorder, reorderC,
      show ([home, ((0:ℝ), (0:ℝ))] : List Point).drop 1 = [((0:ℝ), (0:ℝ))]
        from rfl]
    show reorderLoopC max_charge [home, ((0:ℝ), (0:ℝ))] (4 + 1)
      ⟨[0], max_charge, [((0:ℝ), (0:ℝ))]⟩ = some [0]
    rw [reorderLoopC, if_neg hany]
  · have hend : (([0] ++ [0] : List Int)).headD (-1) = 0 ∧
        (([0] ++ [0] : List Int)).getLastD (-1) = 0 := by norm_num
    have hcov : ¬ (∀ i : Int, i ∈ ([0] ++ [0] : List Int) ↔
        0 ≤ i ∧ i < (([home, ((0:ℝ), (0:ℝ))] : List Point).length : Int)) := by
      intro h
      have h1 := (h 1).mpr (by norm_num)
      norm_num at h1
    rw [check_order, check_orderC, if_pos hend, if_neg hcov]

/-- C1 (amended): for every point set (depot first) whose rows are
pairwise distinct, whose non-depot points all avoid the exact origin,
and whose non-depot points are all strictly round-trip reachable
(`2 · distance(p, home) < max_charge`), the builder terminates within
`2·N + 1` loop iterations and the produced order, with the final depot
id appended, passes `check_order` with a non-negative total length. -/
theorem C1_reachable_tour_validates (rest : List Point)
    (hnd : (home :: rest).Nodup)
    (hz : ∀ p ∈ rest, p ≠ ((0:ℝ), (0:ℝ)))
    (hreach : ∀ p ∈ rest, 2 * dist p home < max_charge) :
    ∃ ord, reorder (home :: rest) (2 * rest.length + 1) = some ord ∧
      ∃ L, check_order (home :: rest) (ord ++ [0]) = Except.ok L ∧ 0 ≤ L := by
  have hfar : ∀ p ∈ rest, dist p home < max_distance := by
    intro p hp
    have := hreach p hp
    rw [max_charge] at this
    rw [max_distance]
    linarith
  exact reorderC_valid rest (by rw [max_charge]; norm_num) hnd hz hreach hfar

/-- C1 witness: a concrete two-point reachable set. -/
theorem C1_witness :
    ∃ ord, reorder [home, ((1:ℝ), 1/2), ((0:ℝ), 1/2)] 5 = some ord ∧
      ∃ L, check_order [home, ((1:ℝ), 1/2), ((0:ℝ), 1/2)] (ord ++ [0]) =
        Except.ok L ∧ 0 ≤ L := by
  have h := C1_reachable_tour_validates [((1:ℝ), 1/2), ((0:ℝ), 1/2)]
    (by norm_num [List.nodup_cons, home, Prod.ext_iff])
    (by
      intro p hp
      rcases List.mem_cons.mp hp with rfl | hp2
      · norm_num [Prod.ext_iff]
      · rcases List.mem_singleton.mp hp2 with rfl
        norm_num [Prod.ext_iff])
    (by
      intro p hp
      rcases List.mem_cons.mp hp with rfl | hp2
      · rw [dist_home_line]
        norm_num [max_charge, abs_of_nonneg, abs_of_nonpos]
      · rcases List.mem_singleton.mp hp2 with rfl
        rw [dist_home_line]
        norm_num [max_charge, abs_of_nonneg, abs_of_nonpos])
  exact h

/-- C2 counterexample: with `from = home`, `to = (1/2, 2)` and
`charge = max_charge`, the claim's boundary condition
`distance(from,to) + distance(to,depot) ≤ remainingCharge` holds with
equality (3/2 + 3/2 = 3), yet `distance_modified` returns the numeric
sentinel `max_distance = 10`, not the distance: the source tests the
strict inequality `<` and signals infeasibility by a sentinel value. -/
theorem C2_counterexample :
    dist home ((1:ℝ)/2, 2) + dist ((1:ℝ)/2, 2) home ≤ max_charge ∧
    distance_modified ((1:ℝ)/2, 2) home max_charge = max_distance ∧
    distance_modified ((1:ℝ)/2, 2) home max_charge ≠ dist home ((1:ℝ)/2, 2) := by
  have hd : dist ((1:ℝ)/2, 2) home = 3/2 := by
    rw [show home = ((1:ℝ)/2, (1:ℝ)/2) from rfl, dist_vert]
    norm_num
  have hd2 : dist home ((1:ℝ)/2, 2) = 3/2 := by
    rw [dist_comm]
    exact hd
  have hdm : distance_modified ((1:ℝ)/2, 2) home max_charge = max_distance := by
    apply distance_modified_of_infeasible
    rw [hd, max_charge]
    norm_num
  refine ⟨?_, hdm, ?_⟩
  · rw [hd, hd2, max_charge]
    norm_num
  · rw [hdm, hd2, max_distance]
    norm_num

/-- C2 (amended): `distance_modified(to, from, charge)` — the call-site
argument order puts the candidate first — returns the Euclidean distance
from `from` to `to` exactly when
`distance(from,to) + distance(to,depot) < charge` holds STRICTLY, and
otherwise returns the numeric sentinel `max_distance = 10` (not an
optional/absent result). -/
theorem C2_feasible_leg (pfrom pto : Point) (charge : ℝ) :
    (dist pfrom pto + dist pto home < charge →
      distance_modified pto pfrom charge = dist pfrom pto) ∧
    (¬ (dist pfrom pto + dist pto home < charge) →
      distance_modified pto pfrom charge = max_distance) := by
  constructor
  · intro h
    rw [distance_modified_of_feasible (by rw [dist_comm pto pfrom]; exact h)]
    exact dist_comm pto pfrom
  · intro h
    exact distance_modified_of_infeasible (by rw [dist_comm pto pfrom]; exact h)

/-- C2 witness: a strictly feasible leg from home. -/
theorem C2_witness :
    distance_modified ((1:ℝ), 1/2) home max_charge = dist home ((1:ℝ), 1/2) := by
  apply (C2_feasible_leg home ((1:ℝ), 1/2) max_charge).1
  rw [dist_comm home ((1:ℝ), 1/2), dist_home_line]
  norm_num [max_charge, abs_of_nonneg, abs_of_nonpos]

/-- C3: the code has no `UnreachablePoint` detection at all.  For the
point `(5/2, 1/2)`, whose distance 2 from the depot exceeds half the
capacity (3/2), the builder recharges forever: at every fuel bound the
loop is still running (`none`), so construction neither fails fast nor
terminates — it silently enters an infinite loop, contradicting the
spec's required behavior. -/
theorem C3_unreachable_infinite_loop :
    max_charge / 2 < dist ((5:ℝ)/2, 1/2) home ∧
    ∀ fuel, reorder [home, ((5:ℝ)/2, 1/2)] fuel = none := by
  have hd : dist ((5:ℝ)/2, 1/2) home = 2 := by
    rw [dist_home_line]
    norm_num
  constructor
  · rw [hd, max_charge]
    norm_num
  · intro fuel
    apply single_infeasible_nonterm
    · norm_num [Prod.ext_iff]
    · rw [hd, max_charge]
      norm_num

/-- C4: exact characterization of the validator.  On a nonempty
candidate tour, `check_order` fails with `MalformedEndpoints` iff the
tour does not start and end at the depot id; with
`IncompleteVisitation` iff (endpoints fine but) the collapsed identifier
set differs from `{0..N}`; with `ConstraintViolation` iff (both fine
but) the leg-by-leg replay — charge reset to capacity at every depot
occurrence, decremented by each leg's Euclidean length — drives the
charge to zero or below; and otherwise succeeds, returning exactly the
non-negative total path length. -/
theorem C4_validator_contract (pts : List Point) (order : List Int)
    (hne : order ≠ []) :
    (check_order pts order = Except.error CheckErr.malformedEndpoints ↔
      ¬ startsEndsAtDepot order) ∧
    (check_order pts order = Except.error CheckErr.incompleteVisitation ↔
      startsEndsAtDepot order ∧ ¬ visitsExactly pts order) ∧
    (check_order pts order = Except.error CheckErr.constraintViolation ↔
      startsEndsAtDepot order ∧ visitsExactly pts order ∧
        ∃ c ∈ chargesAlong max_charge pts order max_charge (pyGet pts 0),
          c ≤ 0) ∧
    ((∃ L, check_order pts order = Except.ok L ∧ 0 ≤ L) ↔
      startsEndsAtDepot order ∧ visitsExactly pts order ∧
        ∀ c ∈ chargesAlong max_charge pts order max_charge (pyGet pts 0),
          0 < c) ∧
    (∀ L, check_order pts order = Except.ok L →
      L = pathLen pts order (pyGet pts 0)) := by
  have hc := check_orderC_cases max_charge pts order
  by_cases hse : startsEndsAtDepot order
  · by_cases hcov : visitsExactly pts order
    · rcases exists_viol_or_all_pos
          (chargesAlong max_charge pts order max_charge (pyGet pts 0)) with
        hviol | hall
      · have hval : check_order pts order =
            Except.error CheckErr.constraintViolation :=
          hc.2.2.1 hse hcov hviol
        have hnall : ¬ ∀ c ∈ chargesAlong max_charge pts order max_charge
            (pyGet pts 0), 0 < c := by
          intro hall
          obtain ⟨c, hcm, hle⟩ := hviol
          exact absurd (hall c hcm) (not_lt.mpr hle)
        refine ⟨?_, ?_, ?_, ?_, ?_⟩
        · rw [hval]
          simp [hse]
        · rw [hval]
          simp [hcov]
        · rw [hval]
          simp [hse, hcov, hviol]
        · rw [hval]
          simp [hnall]
        · intro L hL
          rw [hval] at hL
          exact absurd hL (by simp)
      · have hval : check_order pts order =
            Except.ok (pathLen pts order (pyGet pts 0)) :=
          hc.2.2.2 hse hcov hall
        have hnviol : ¬ ∃ c ∈ chargesAlong max_charge pts order max_charge
            (pyGet pts 0), c ≤ 0 := by
          rintro ⟨c, hcm, hle⟩
          exact absurd (hall c hcm) (not_lt.mpr hle)
        refine ⟨?_, ?_, ?_, ?_, ?_⟩
        · rw [hval]
          simp [hse]
        · rw [hval]
          simp [hcov]
        · rw [hval]
          constructor
          · intro hcontra
            exact absurd hcontra (by simp)
          · rintro ⟨_, _, hviol2⟩
            exact absurd hviol2 hnviol
        · rw [hval]
          constructor
          · intro _
            exact ⟨hse, hcov, hall⟩
          · intro _
            exact ⟨pathLen pts order (pyGet pts 0), rfl,
              pathLen_nonneg pts order (pyGet pts 0)⟩
        · intro L hL
          rw [hval] at hL
          exact (Except.ok.inj hL).symm
    · have hval : check_order pts order =
          Except.error CheckErr.incompleteVisitation := hc.2.1 hse hcov
      refine ⟨?_, ?_, ?_, ?_, ?_⟩
      · rw [hval]
        simp [hse]
      · rw [hval]
        simp [hse, hcov]
      · rw [hval]
        simp [hcov]
      · rw [hval]
        simp [hcov]
      · intro L hL
        rw [hval] at hL
        exact absurd hL (by simp)
  · have hval : check_order pts order =
        Except.error CheckErr.malformedEndpoints := hc.1 hse
    refine ⟨?_, ?_, ?_, ?_, ?_⟩
    · rw [hval]
      simp [hse]
    · rw [hval]
      simp [hse]
    · rw [hval]
      simp [hse]
    · rw [hval]
      simp [hse]
    · intro L hL
      rw [hval] at hL
      exact absurd hL (by simp)

/-- C4 witness: the trivial tour on the empty point set succeeds with
its total path length. -/
theorem C4_witness :
    ∃ L, check_order [home] [0, 0] = Except.ok L ∧ 0 ≤ L := by
  apply (C4_validator_contract [home] [0, 0] (by simp)).2.2.2.1.mpr
  refine ⟨⟨rfl, rfl⟩, ?_, ?_⟩
  · intro i
    simp only [List.mem_cons, List.not_mem_nil, or_false, List.length_cons,
      List.length_nil]
    omega
  · intro c hcm
    norm_num [chargesAlong, pyGet, dist_self, max_charge, Int.toNat,
      List.mem_cons] at hcm
    rcases hcm with rfl | rfl <;> norm_num

/-- C5 counterexample: the single point `(2, 1/2)` sits exactly at
distance `capacity / 2 = 3/2` from the depot, so its round trip costs
exactly the capacity.  The claim says it is feasible and its tour
validates; in fact the builder's strict `<` test rejects it
(`distance_modified` yields the sentinel), `reorder` never terminates at
any fuel, and even the tour `[0, 1, 0]` is rejected by the validator's
strict `charge > 0` assert (`ConstraintViolation`). -/
theorem C5_counterexample :
    dist ((2:ℝ), 1/2) home + dist ((2:ℝ), 1/2) home = max_charge ∧
    distance_modified ((2:ℝ), 1/2) home max_charge = max_distance ∧
    check_order [home, ((2:ℝ), 1/2)] [0, 1, 0] =
      Except.error CheckErr.constraintViolation ∧
    ∀ fuel, reorder [home, ((2:ℝ), 1/2)] fuel = none := by
  have hd : dist ((2:ℝ), 1/2) home = 3/2 := by
    rw [dist_home_line]
    norm_num
  refine ⟨by rw [hd, max_charge]; norm_num, ?_, ?_, ?_⟩
  · apply distance_modified_of_infeasible
    rw [hd, max_charge]
    norm_num
  · have hend : (([0, 1, 0] : List Int)).headD (-1) = 0 ∧
        (([0, 1, 0] : List Int)).getLastD (-1) = 0 := by norm_num
    have hcov : ∀ i : Int, i ∈ ([0, 1, 0] : List Int) ↔
        0 ≤ i ∧ i < (([home, ((2:ℝ), 1/2)] : List Point).length : Int) := by
      intro i
      simp only [List.mem_cons, List.not_mem_nil, or_false, List.length_cons,
        List.length_nil]
      omega
    rw [check_order, check_orderC, if_pos hend, if_pos hcov]
    norm_num [traverseC, pyGet, home, dist_line, abs_of_nonneg, abs_of_nonpos,
      Int.toNat, max_charge]
  · intro fuel
    apply single_infeasible_nonterm
    · norm_num [Prod.ext_iff]
    · rw [hd, max_charge]
      norm_num

/-- C5 (amended): for a single non-depot, non-origin point `p` distinct
from the depot, if `2 · distance(p, home)` is STRICTLY below the
capacity then `p` is feasible — the builder terminates and its tour,
with the final depot id appended, validates with a non-negative length;
if the round trip is at or above the capacity (including exactly equal)
`p` is infeasible — `distance_modified` yields the `max_distance`
sentinel at full charge and `reorder` never terminates (there is no
`UnreachablePoint` error). -/
theorem C5_boundary (p : Point) (hph : p ≠ home) (hpz : p ≠ ((0:ℝ), (0:ℝ))) :
    (2 * dist p home < max_charge →
      ∃ ord, reorder [home, p] 3 = some ord ∧
        ∃ L, check_order [home, p] (ord ++ [0]) = Except.ok L ∧ 0 ≤ L) ∧
    (max_charge ≤ 2 * dist p home →
      distance_modified p home max_charge = max_distance ∧
      ∀ fuel, reorder [home, p] fuel = none) := by
  constructor
  · intro hreach
    have h := @reorderC_valid max_charge [p] (by rw [max_charge]; norm_num)
      (by
        rw [List.nodup_cons]
        refine ⟨?_, by simp⟩
        rw [List.mem_singleton]
        exact fun he => hph he.symm)
      (by
        intro q hq
        rcases List.mem_singleton.mp hq with rfl
        exact hpz)
      (by
        intro q hq
        rcases List.mem_singleton.mp hq with rfl
        exact hreach)
      (by
        intro q hq
        rcases List.mem_singleton.mp hq with rfl
        rw [max_distance]
        rw [max_charge] at hreach
        linarith)
    exact h
  · intro hfar
    refine ⟨?_, ?_⟩
    · apply distance_modified_of_infeasible
      linarith
    · intro fuel
      exact single_infeasible_nonterm hpz (by linarith) fuel

/-- C5 witness: `(1, 1/2)` (distance 1/2, strictly inside) is feasible
and validates; `(2, 1/2)` (distance 3/2, exactly the boundary) is
infeasible and the builder never terminates on it. -/
theorem C5_witness :
    (∃ ord, reorder [home, ((1:ℝ), 1/2)] 3 = some ord ∧
      ∃ L, check_order [home, ((1:ℝ), 1/2)] (ord ++ [0]) = Except.ok L ∧
        0 ≤ L) ∧
    distance_modified ((2:ℝ), 1/2) home max_charge = max_distance ∧
    ∀ fuel, reorder [home, ((2:ℝ), 1/2)] fuel = none := by
  refine ⟨?_, ?_⟩
  · apply (C5_boundary ((1:ℝ), 1/2)
      (by norm_num [home, Prod.ext_iff]) (by norm_num [Prod.ext_iff])).1
    rw [dist_home_line]
    norm_num [max_charge, abs_of_nonneg, abs_of_nonpos]
  · apply (C5_boundary ((2:ℝ), 1/2)
      (by norm_num [home, Prod.ext_iff]) (by norm_num [Prod.ext_iff])).2
    rw [dist_home_line]
    norm_num [max_charge, abs_of_nonneg, abs_of_nonpos]

/-- C6: whenever every unvisited candidate is infeasible (moving there
and then returning home would not fit strictly inside the remaining
charge), the loop body appends the depot id to the tour, resets the
charge to the capacity, and leaves `unvisited` exactly unchanged; the
implicit position `points[best_order[-1]]` becomes the depot's row. -/
theorem C6_recharge_frame (points : List Point) (st : RState)
    (hinf : ∀ q ∈ st.unvisited,
      ¬ (dist q (pyGet points (st.best_order.getLastD 0)) + dist q home <
        st.robot_charge)) :
    reorderStepC max_charge points st =
      ⟨st.best_order ++ [0], max_charge, st.unvisited⟩ ∧
    pyGet points ((st.best_order ++ [0]).getLastD 0) = pyGet points 0 := by
  constructor
  · apply reorderStepC_sentinel
    rw [nearest_neighbor_modified, nnAux_const (fun q hq =>
      distance_modified_of_infeasible (hinf q hq)) home]
  · rw [getLastD_concat]

/-- C6 witness: a momentarily infeasible far point stays unvisited
across the recharge step. -/
theorem C6_witness :
    reorderStepC max_charge [home, ((3:ℝ), 1/2)]
        ⟨[0], 1, [((3:ℝ), 1/2)]⟩ =
      ⟨[0] ++ [0], max_charge, [((3:ℝ), 1/2)]⟩ ∧
    pyGet [home, ((3:ℝ), 1/2)] ((([0] : List Int) ++ [0]).getLastD 0) =
      pyGet [home, ((3:ℝ), 1/2)] 0 := by
  apply C6_recharge_frame
  intro q hq
  rcases List.mem_singleton.mp hq with rfl
  show ¬ (dist ((3:ℝ), 1/2) (pyGet [home, ((3:ℝ), 1/2)]
    ((([0] : List Int)).getLastD 0)) + dist ((3:ℝ), 1/2) home < 1)
  rw [show pyGet [home, ((3:ℝ), 1/2)] ((([0] : List Int)).getLastD 0) = home
    from rfl, dist_home_line]
  norm_num [abs_of_nonneg, abs_of_nonpos]

/-- C7 counterexample: on the six-point set `c7pts`, the run with the
SMALLER capacity 41/10 yields tour `[0,5,2,4,0,3,1,0]` with one interior
depot visit, while the run with the LARGER capacity 21/5 = 42/10 yields
`[0,5,2,3,0,4,0,1,0]` with two: reducing the capacity DECREASED the
number of recharge events, refuting monotonicity.  Both tours pass the
(capacity-parameterized) validator. -/
theorem C7_counterexample :
    (41/10 : ℝ) ≤ 21/5 ∧
    reorderC (21/5) c7pts 8 = some [0, 5, 2, 3, 0, 4, 0, 1] ∧
    reorderC (41/10) c7pts 8 = some [0, 5, 2, 4, 0, 3, 1] ∧
    check_orderC (21/5) c7pts [0, 5, 2, 3, 0, 4, 0, 1, 0] =
      Except.ok (52/5) ∧
    check_orderC (41/10) c7pts [0, 5, 2, 4, 0, 3, 1, 0] =
      Except.ok (79/10) ∧
    rechargeCount [0, 5, 2, 4, 0, 3, 1, 0] <
      rechargeCount [0, 5, 2, 3, 0, 4, 0, 1, 0] := by
  refine ⟨by norm_num, c7runB, c7runA, c7checkB, c7checkA, by decide⟩

/-- C7 (amended): on point sets with at most one non-depot point
(distinct from the depot), the recharge count is monotone under capacity
reduction — indeed every terminating run performs no recharge at all, so
the count with the smaller capacity is at least the count with the
larger one.  (For larger point sets the original claim is false; see the
counterexample.) -/
theorem C7_monotone_single_point (p : Point) (hph : home ≠ p) (c c2 : ℝ)
    (hle : c2 ≤ c) (f f2 : ℕ) (o o2 : List Int)
    (h : reorderC c [home, p] f = some o)
    (h2 : reorderC c2 [home, p] f2 = some o2) :
    rechargeCount (o ++ [0]) ≤ rechargeCount (o2 ++ [0]) := by
  rcases single_reorder_cases hph h with rfl | rfl <;>
    rcases single_reorder_cases hph h2 with rfl | rfl <;> decide

/-- C7 witness: two capacities on the same single-point set. -/
theorem C7_witness :
    rechargeCount ([0, 1] ++ [0]) ≤ rechargeCount ([0, 1] ++ [0]) := by
  have hrun1 : reorderC 3 [home, ((-1:ℝ)/2, 1/2)] 2 = some [0, 1] := by
    norm_num [reorderC, reorderLoopC, reorderStepC, anyNonzero,
      nearest_neighbor_modified, nnAux, distance_modified, get_index,
      get_indexAux, remove, pyGet, home, max_distance, dist_line,
      Prod.ext_iff, abs_of_nonneg, abs_of_nonpos, Int.toNat]
  have hrun2 : reorderC (5/2) [home, ((-1:ℝ)/2, 1/2)] 2 = some [0, 1] := by
    norm_num [reorderC, reorderLoopC, reorderStepC, anyNonzero,
      nearest_neighbor_modified, nnAux, distance_modified, get_index,
      get_indexAux, remove, pyGet, home, max_distance, dist_line,
      Prod.ext_iff, abs_of_nonneg, abs_of_nonpos, Int.toNat]
  exact C7_monotone_single_point ((-1:ℝ)/2, 1/2)
    (by norm_num [home, Prod.ext_iff]) 3 (5/2) (by norm_num) 2 2 [0, 1] [0, 1]
    hrun1 hrun2

/-- C8: the route builder is deterministic — it is a pure function of
the point set (and fuel): two runs on the same unchanged input produce
the same result.  The source's `reorder` reads no global mutable or
random state (randomness occurs only in external point generation), and
its tie-break (first strict minimum) is fixed. -/
theorem C8_deterministic (points : List Point) (fuel : ℕ)
    (o1 o2 : Option (List Int))
    (h1 : reorder points fuel = o1) (h2 : reorder points fuel = o2) :
    o1 = o2 :=
  h1.symm.trans h2

/-- C8 witness: two evaluated runs on the empty point set coincide. -/
theorem C8_witness : (some [0] : Option (List Int)) = some [0] := by
  have hrun : reorder [home] 1 = some [0] := by
    rw [reorder, reorderC, show ([home] : List Point).drop 1 = [] from rfl]
    exact loop_empty _ _ _ _ _
  exact C8_deterministic [home] 1 (some [0]) (some [0]) hrun hrun

/-- C9: with zero non-depot points the builder does not fail: at every
fuel it returns `[0]`, the full tour (with the final depot id appended)
is `[0, 0]`, and the validator accepts it with total length 0. -/
theorem C9_empty_point_set :
    (∀ fuel, reorder [home] fuel = some [0]) ∧
    check_order [home] ([0] ++ [0]) = Except.ok 0 := by
  constructor
  · intro fuel
    rw [reorder, reorderC, show ([home] : List Point).drop 1 = [] from rfl]
    exact loop_empty _ _ _ _ _
  · have hend : (([0] ++ [0] : List Int)).headD (-1) = 0 ∧
        (([0] ++ [0] : List Int)).getLastD (-1) = 0 := by norm_num
    have hcov : ∀ i : Int, i ∈ ([0] ++ [0] : List Int) ↔
        0 ≤ i ∧ i < (([home] : List Point).length : Int) := by
      intro i
      simp only [List.cons_append, List.nil_append, List.mem_cons,
        List.not_mem_nil, or_false, List.length_cons, List.length_nil]
      omega
    rw [check_order, check_orderC, if_pos hend, if_pos hcov]
    norm_num [traverseC, pyGet, dist_self, max_charge, Int.toNat]

/-- C10: the loop guard is `unvisited_points.any()` — numpy truth of the
residual coordinate array — rather than non-emptiness.  On the point set
whose sole non-depot point is exactly `(0.0, 0.0)`, the guard is false
immediately, so at every fuel `reorder` returns `[0]`, omitting
identifier 1, although the origin is strictly round-trip reachable. -/
theorem C10_origin_point_skipped :
    (∀ fuel, reorder [home, ((0:ℝ), (0:ℝ))] fuel = some [0]) ∧
    (1 : Int) ∉ ([0] : List Int) ∧
    2 * dist ((0:ℝ), (0:ℝ)) home < max_charge := by
  refine ⟨?_, by decide, origin_reachable⟩
  intro fuel
  have hany : ¬ anyNonzero [((0:ℝ), (0:ℝ))] := by
    rintro ⟨p, hp, hne⟩
    rcases List.mem_singleton.mp hp with rfl
    rcases hne with h | h <;> exact h rfl
  rw [reorder, reorderC,
    show ([home, ((0:ℝ), (0:ℝ))] : List Point).drop 1 = [((0:ℝ), (0:ℝ))]
      from rfl]
  cases fuel with
  | zero => rw [reorderLoopC, if_neg hany]
  | succ n => rw [reorderLoopC, if_neg hany]

end TravellingRobot

end
